import Mathlib

/-!
# Verification of the deep-diffs marker-tracking and interval-rendering engine

A shallow embedding of `src/deep-diff.js`.  JavaScript strings are modelled as
`List Char` (a `Char` in Lean is one Unicode scalar value, matching the code
points produced by the spread operator `[...text]` in the source); the UTF-16
code-unit view used by `String.prototype.slice` is modelled separately by
`utf16Encode` / `jsStringSlice`.  JavaScript numbers holding character indices
are modelled as `Int` (marker coordinates may go negative under `shift`);
the diff timeout, a JavaScript number measured in seconds, as `ℚ`.
The external diff-match-patch engine is a black box: `computeDeepDiff` is
parametrised by a function `engine : ℚ → List Char → List Char → List EditOp`
that receives the configured time budget and the two revision texts.
-/

namespace DeepDiff

/-- One edit operation from a pairwise diff: a tagged span of text, as in the
`[op, text]` tuples produced by diff-match-patch (`DIFF_EQUAL`, `DIFF_INSERT`,
`DIFF_DELETE`). -/
inductive EditOp where
  | Kept (text : List Char)
  | Inserted (text : List Char)
  | Deleted (text : List Char)
deriving DecidableEq

/-- The text carried by an edit operation. -/
def EditOp.text : EditOp → List Char
  | .Kept t => t
  | .Inserted t => t
  | .Deleted t => t

/-- Is the operation an insertion? -/
def EditOp.isInserted : EditOp → Bool
  | .Inserted _ => true
  | _ => false

/-- A marker representing a changed region across revisions, with inclusive
`start`/`end` bounds (class `Marker` in the source). -/
structure Marker where
  start : Int
  «end» : Int
  enabled : Bool
deriving DecidableEq

/-- `get length()` on `Marker`: inclusive indices, so `end - start + 1`. -/
def Marker.length (m : Marker) : Int := m.«end» - m.start + 1

/-- `shift(delta)`: move both bounds. -/
def Marker.shift (m : Marker) (delta : Int) : Marker :=
  { m with start := m.start + delta, «end» := m.«end» + delta }

/-- `expand(delta)`: move only the end bound. -/
def Marker.expand (m : Marker) (delta : Int) : Marker :=
  { m with «end» := m.«end» + delta }

/-- `contract(delta)`: shrink from the end; if the resulting length is `≤ 0`
the marker has been subsumed by deletion and is disabled. -/
def Marker.contract (m : Marker) (delta : Int) : Marker :=
  let m' : Marker := { m with «end» := m.«end» - delta }
  if m'.length ≤ 0 then { m' with enabled := false } else m'

/-- One step of the inner loop of `transformMarkers`: resolve a single edit
operation against the state `(marker, index)`, where `index` is the private
cursor of this marker's replay. -/
def transformStep (mi : Marker × Int) (op : EditOp) : Marker × Int :=
  let marker := mi.1
  let index := mi.2
  match op with
  | .Inserted text =>
      let len : Int := text.length
      if index ≤ marker.start then (marker.shift len, index + len)
      else if index > marker.start ∧ index ≤ marker.«end» then
        (marker.expand len, index + len)
      else (marker, index + len)
  | .Deleted text =>
      let len : Int := text.length
      let delEnd := index + len - 1
      if delEnd < marker.start then (marker.shift (-len), index)
      else if index > marker.«end» then (marker, index)
      else if index ≤ marker.start ∧ delEnd ≥ marker.«end» then
        ({ marker with enabled := false }, index)
      else if index ≤ marker.start ∧ delEnd < marker.«end» then
        let preOverlap := marker.start - index
        let overlap := delEnd - marker.start + 1
        ((marker.shift (-preOverlap)).contract overlap, index)
      else if index > marker.start ∧ delEnd ≥ marker.«end» then
        let overlap := marker.«end» - index + 1
        (marker.contract overlap, index)
      else (marker.contract len, index)
  | .Kept text => (marker, index + (text.length : Int))

/-- The full replay of one marker through an op sequence with a private
cursor initialised to 0 (the body of the `for (const marker of markers)`
loop in `transformMarkers`). -/
def replayOps (m : Marker) (diffs : List EditOp) : Marker :=
  (diffs.foldl transformStep (m, 0)).1

/-- Per-marker transformation including the `if (!marker.enabled) continue`
guard: a disabled marker is left untouched. -/
def transformOne (diffs : List EditOp) (m : Marker) : Marker :=
  if m.enabled then replayOps m diffs else m

/-- The comparator `(a, b) => a.start - b.start` used to sort markers. -/
def markerLE (a b : Marker) : Prop := a.start ≤ b.start

instance : DecidableRel markerLE :=
  fun a b => inferInstanceAs (Decidable (a.start ≤ b.start))

/-- `transformMarkers(markers, diffs)`: sort by start position, then replay
the entire op sequence for each enabled marker independently.  The in-place
mutation of the sorted array is modelled as a map over the sorted list. -/
def transformMarkers (markers : List Marker) (diffs : List EditOp) : List Marker :=
  (List.insertionSort markerLE markers).map (transformOne diffs)

/-- The walk of `addInsertionMarkers`, carrying the cursor in the new text's
coordinate space: one marker per inserted span, cursor advancing on
`DIFF_INSERT` and `DIFF_EQUAL` only. -/
def genInsertionMarkers (index : Int) : List EditOp → List Marker
  | [] => []
  | .Inserted text :: rest =>
      ⟨index, index + text.length - 1, true⟩ ::
        genInsertionMarkers (index + text.length) rest
  | .Kept text :: rest => genInsertionMarkers (index + text.length) rest
  | .Deleted _ :: rest => genInsertionMarkers index rest

/-- `addInsertionMarkers(markers, diffs)`: push one new marker per insertion
onto the existing collection. -/
def addInsertionMarkers (markers : List Marker) (diffs : List EditOp) : List Marker :=
  markers ++ genInsertionMarkers 0 diffs

/-- The cursor/length pairs of the inserted spans of an op sequence, walked
exactly as §4.2 of the spec describes ("a cursor that advances by length on
Kept and Inserted spans only").  Used to state the Insertion Marker
Generator's contract. -/
def insertedSpanPositions (cursor : Int) : List EditOp → List (Int × Int)
  | [] => []
  | .Inserted text :: rest =>
      (cursor, (text.length : Int)) :: insertedSpanPositions (cursor + text.length) rest
  | .Kept text :: rest => insertedSpanPositions (cursor + text.length) rest
  | .Deleted _ :: rest => insertedSpanPositions cursor rest

/-- The set of code points removed by `String.prototype.trim` (ECMAScript
WhiteSpace and LineTerminator). -/
def isJsWhitespace (c : Char) : Bool :=
  c.toNat ∈ ([9, 10, 11, 12, 13, 32, 0xA0, 0x1680,
    0x2000, 0x2001, 0x2002, 0x2003, 0x2004, 0x2005, 0x2006, 0x2007,
    0x2008, 0x2009, 0x200A, 0x2028, 0x2029, 0x202F, 0x205F, 0x3000,
    0xFEFF] : List Nat)

/-- `r.trim()`. -/
def jsTrim (s : List Char) : List Char :=
  ((s.dropWhile isJsWhitespace).reverse.dropWhile isJsWhitespace).reverse

/-- The options object accepted by `computeDeepDiff`.  A JavaScript options
object may carry arbitrary keys; the destructuring in the source reads only
`skipEmpty` and `timeout`.  The `timeoutSeconds` field models a caller
passing a key of that name (the name §6 of the spec uses), which the
implementation never reads. -/
structure ComputeOptions where
  skipEmpty : Option Bool
  timeout : Option ℚ
  timeoutSeconds : Option ℚ
deriving DecidableEq

/-- Result record of `computeDeepDiff`. -/
structure DeepDiffResult where
  text : List Char
  markers : List Marker
deriving DecidableEq

/-- The revision normalisation in `computeDeepDiff`: trim every revision and,
unless `skipEmpty` is disabled, drop the ones whose trimmed text is empty. -/
def normalizedTexts (options : ComputeOptions) (revisions : List (List Char)) :
    List (List Char) :=
  let skipEmpty := options.skipEmpty.getD true
  (revisions.map jsTrim).filter (fun r => !skipEmpty || r.length > 0)

/-- The revision-pair loop of `computeDeepDiff`: for each consecutive pair,
obtain the op sequence from the engine, transform the accumulated markers,
then append the insertion markers of this pass. -/
def drive (diffAndClean : List Char → List Char → List EditOp)
    (markers : List Marker) (prev : List Char) : List (List Char) → List Marker
  | [] => markers
  | cur :: rest =>
      let diffs := diffAndClean prev cur
      drive diffAndClean (addInsertionMarkers (transformMarkers markers diffs) diffs)
        cur rest

/-- `computeDeepDiff(revisions, options)`.  The external diff engine
(`diff_main` followed by the cleanup passes) is the black-box parameter
`engine`, which receives the configured time budget `dmp.Diff_Timeout`. -/
def computeDeepDiff (engine : ℚ → List Char → List Char → List EditOp)
    (revisions : List (List Char)) (options : ComputeOptions) : DeepDiffResult :=
  let timeout := options.timeout.getD 1
  let diffAndClean := engine timeout
  let texts := normalizedTexts options revisions
  if texts.length < 2 then
    { text := texts.headD [], markers := [] }
  else
    { text := texts.getLastD [],
      markers := (drive diffAndClean [] (texts.headD []) (texts.drop 1)).filter
        (fun m => m.enabled) }

/-- A boundary event of the renderer: `{index, type}` with
`type ∈ {open, close}`; `close = true` encodes `type === 'close'`. -/
structure BoundaryEvent where
  index : Int
  close : Bool
deriving DecidableEq

/-- The event list built by `renderWithMarkers`: for each marker an open
event at `start` and a close event at `end + 1`, in marker order. -/
def eventsOf : List Marker → List BoundaryEvent
  | [] => []
  | m :: rest => ⟨m.start, false⟩ :: ⟨m.«end» + 1, true⟩ :: eventsOf rest

/-- The total preorder realised by the renderer's event comparator: ascending
index; at equal indices a close event sorts before an open event (ties
between two events of the same kind are unordered, matching the comparator,
and do not affect the output since equal tags are emitted). -/
def evLE (a b : BoundaryEvent) : Prop :=
  a.index < b.index ∨ (a.index = b.index ∧ (a.close = true ∨ b.close = false))

instance : DecidableRel evLE :=
  fun a b => inferInstanceAs
    (Decidable (a.index < b.index ∨ (a.index = b.index ∧ (a.close = true ∨ b.close = false))))

instance : IsTotal BoundaryEvent evLE :=
  ⟨fun a b => by
    unfold evLE
    rcases Int.lt_trichotomy a.index b.index with h | h | h
    · exact Or.inl (Or.inl h)
    · cases ha : a.close
      · exact Or.inr (Or.inr ⟨h.symm, Or.inr rfl⟩)
      · exact Or.inl (Or.inr ⟨h, Or.inl rfl⟩)
    · exact Or.inr (Or.inl h)⟩

instance : IsTrans BoundaryEvent evLE :=
  ⟨fun a b c hab hbc => by
    unfold evLE at hab hbc ⊢
    rcases hab with h1 | ⟨h1, d1⟩ <;> rcases hbc with h2 | ⟨h2, d2⟩
    · exact Or.inl (h1.trans h2)
    · exact Or.inl (h2 ▸ h1)
    · exact Or.inl (h1 ▸ h2)
    · refine Or.inr ⟨h1.trans h2, ?_⟩
      rcases d1 with d1 | d1
      · exact Or.inl d1
      · rcases d2 with d2 | d2
        · rw [d1] at d2; exact absurd d2 (by simp)
        · exact Or.inr d2⟩

/-- The sorted boundary-event list the renderer sweeps over (enabled markers
only). -/
def renderEvents (markers : List Marker) : List BoundaryEvent :=
  List.insertionSort evLE (eventsOf (markers.filter (fun m => m.enabled)))

/-- Per-character HTML escaping.  The source applies four global `replace`
passes in the order `&`, `<`, `>`, `"`; since no replacement string contains
a character replaced by a later pass, and only `&` starts an entity, the
chain is equal to this single character-wise substitution. -/
def escapeChar (c : Char) : List Char :=
  if c = '&' then ['&', 'a', 'm', 'p', ';']
  else if c = '<' then ['&', 'l', 't', ';']
  else if c = '>' then ['&', 'g', 't', ';']
  else if c = '"' then ['&', 'q', 'u', 'o', 't', ';']
  else [c]

/-- `escapeHtml(str)`. -/
def escapeHtml : List Char → List Char
  | [] => []
  | c :: rest => escapeChar c ++ escapeHtml rest

/-- The open tag literal: `<tag class="cls">`, or `<tag>` when the class name
is empty (an empty string is falsy in JavaScript). -/
def openTagOf (tagName className : List Char) : List Char :=
  if className = [] then ['<'] ++ tagName ++ ['>']
  else ['<'] ++ tagName ++ [' ', 'c', 'l', 'a', 's', 's', '=', '"'] ++ className ++ ['"', '>']

/-- The close tag literal `</tag>`. -/
def closeTagOf (tagName : List Char) : List Char :=
  ['<', '/'] ++ tagName ++ ['>']

/-- `Array.prototype.slice(a, b)` on the code-point array `[...text]`:
negative arguments count from the end, both ends are clamped. -/
def jsSlice (l : List Char) (a b : Int) : List Char :=
  let n : Int := l.length
  let a' := if a < 0 then max (n + a) 0 else min a n
  let b' := if b < 0 then max (n + b) 0 else min b n
  (l.drop a'.toNat).take (b' - a').toNat

/-- `chars.slice(a)`: slice to the end. -/
def jsSliceFrom (l : List Char) (a : Int) : List Char :=
  jsSlice l a l.length

/-- The sweep of `renderWithMarkers`: for each event, flush the intervening
text (escaped) when the event's index is ahead of the cursor, then emit the
event's tag; after the last event, flush the trailing text. -/
def renderLoop (text openTag closeTag : List Char) :
    List BoundaryEvent → Int → List Char
  | [], pos => if pos < (text.length : Int) then escapeHtml (jsSliceFrom text pos) else []
  | e :: rest, pos =>
      if e.index > pos then
        escapeHtml (jsSlice text pos e.index) ++ (if e.close then closeTag else openTag) ++
          renderLoop text openTag closeTag rest e.index
      else
        (if e.close then closeTag else openTag) ++ renderLoop text openTag closeTag rest pos

/-- `renderWithMarkers(text, markers, {tagName, className})`. -/
def renderWithMarkers (text : List Char) (markers : List Marker)
    (tagName className : List Char) : List Char :=
  let activeMarkers := markers.filter (fun m => m.enabled)
  if activeMarkers.length = 0 then escapeHtml text
  else renderLoop text (openTagOf tagName className) (closeTagOf tagName)
    (renderEvents markers) 0

/-- The default `tagName`, `'ins'`. -/
def defTagName : List Char := ['i', 'n', 's']

/-- The default `className`, `'deep-diff'`. -/
def defClassName : List Char := ['d', 'e', 'e', 'p', '-', 'd', 'i', 'f', 'f']

/-- Tag-stripping state machine: outside a tag (`inTag = false`) characters
are kept and `<` enters a tag; inside a tag characters are dropped and `>`
leaves it. -/
def stripTagsAux : Bool → List Char → List Char
  | _, [] => []
  | true, c :: rest =>
      if c = '>' then stripTagsAux false rest else stripTagsAux true rest
  | false, c :: rest =>
      if c = '<' then stripTagsAux true rest else c :: stripTagsAux false rest

/-- Remove every `<...>` tag from a rendered string. -/
def stripTags (l : List Char) : List Char := stripTagsAux false l

/-- Invert `escapeHtml`: decode the four entities it produces, scanning left
to right. -/
def unescapeHtml : List Char → List Char
  | [] => []
  | '&' :: 'a' :: 'm' :: 'p' :: ';' :: rest => '&' :: unescapeHtml rest
  | '&' :: 'l' :: 't' :: ';' :: rest => '<' :: unescapeHtml rest
  | '&' :: 'g' :: 't' :: ';' :: rest => '>' :: unescapeHtml rest
  | '&' :: 'q' :: 'u' :: 'o' :: 't' :: ';' :: rest => '"' :: unescapeHtml rest
  | c :: rest => c :: unescapeHtml rest

/-- The UTF-16 code units of one code point (surrogate pair above U+FFFF). -/
def utf16Units (c : Char) : List Nat :=
  if c.toNat < 0x10000 then [c.toNat]
  else [0xD800 + (c.toNat - 0x10000) / 0x400, 0xDC00 + (c.toNat - 0x10000) % 0x400]

/-- The UTF-16 code-unit sequence of a string (how a JavaScript string is
actually indexed by `length`, `slice`, `charCodeAt`). -/
def utf16Encode : List Char → List Nat
  | [] => []
  | c :: rest => utf16Units c ++ utf16Encode rest

/-- `String.prototype.slice(a, b)`: same clamping as `Array.prototype.slice`
but over UTF-16 code units (so it can split a surrogate pair). -/
def jsStringSlice (s : List Char) (a b : Int) : List Nat :=
  let u := utf16Encode s
  let n : Int := u.length
  let a' := if a < 0 then max (n + a) 0 else min a n
  let b' := if b < 0 then max (n + b) 0 else min b n
  (u.drop a'.toNat).take (b' - a').toNat

/-- The spec's deletion table (§4.4 rows applied in order) for a deleted span
of length `L` at cursor `c`, `delEnd = c + L - 1`. -/
def specDeleteResolve (m : Marker) (c L : Int) : Marker :=
  let delEnd := c + L - 1
  if delEnd < m.start then m.shift (-L)
  else if c > m.«end» then m
  else if c ≤ m.start ∧ delEnd ≥ m.«end» then { m with enabled := false }
  else if c ≤ m.start ∧ delEnd < m.«end» then
    (m.shift (-(m.start - c))).contract (delEnd - m.start + 1)
  else if c > m.start ∧ delEnd ≥ m.«end» then m.contract (m.«end» - c + 1)
  else m.contract L

/-- The spec's insertion table for an inserted span of length `L` at cursor
`c`. -/
def specInsertResolve (m : Marker) (c L : Int) : Marker :=
  if c ≤ m.start then m.shift L
  else if m.start < c ∧ c ≤ m.«end» then m.expand L
  else m

/-- A laminar family of markers: every pair is disjoint or one contains the
other. -/
def Laminar (ms : List Marker) : Prop :=
  ∀ a ∈ ms, ∀ b ∈ ms,
    a.«end» < b.start ∨ b.«end» < a.start ∨
    (a.start ≤ b.start ∧ b.«end» ≤ a.«end») ∨ (b.start ≤ a.start ∧ a.«end» ≤ b.«end»)

/-- Markers whose coordinates are in bounds for `text` (and in particular
nonempty: `start ≤ end`). -/
def InBounds (text : List Char) (ms : List Marker) : Prop :=
  ∀ m ∈ ms, 0 ≤ m.start ∧ m.start ≤ m.«end» ∧ m.«end» < (text.length : Int)

instance (ms : List Marker) : Decidable (Laminar ms) := by
  unfold Laminar; infer_instance

instance (text : List Char) (ms : List Marker) : Decidable (InBounds text ms) := by
  unfold InBounds; infer_instance

/-- A three-code-point text whose UTF-16 encoding has four code units: an
emoji (U+1F600, a surrogate pair) followed by `a` and `b`. -/
def demoText : List Char := [Char.ofNat 0x1F600, 'a', 'b']

/-- A diff engine that observably depends on the time budget it receives:
it reports a pure insertion when called with budget 5, and a pure keep
otherwise.  Used to witness which option field reaches the engine. -/
def c3Engine : ℚ → List Char → List Char → List EditOp :=
  fun budget _ new => if budget = 5 then [.Inserted ['x']] else [.Kept new]

theorem Marker.shift_length (m : Marker) (d : Int) : (m.shift d).length = m.length := by
  simp [Marker.shift, Marker.length]

theorem Marker.shift_enabled (m : Marker) (d : Int) : (m.shift d).enabled = m.enabled := rfl

theorem Marker.expand_length (m : Marker) (d : Int) :
    (m.expand d).length = m.length + d := by
  simp [Marker.expand, Marker.length]; omega

theorem Marker.expand_enabled (m : Marker) (d : Int) : (m.expand d).enabled = m.enabled := rfl

theorem Marker.contract_enabled_length (m : Marker) (n : Int)
    (h : (m.contract n).enabled = true) : 1 ≤ (m.contract n).length := by
  unfold Marker.contract at h ⊢
  by_cases hc : ({ m with «end» := m.«end» - n } : Marker).length ≤ 0
  · simp [hc] at h
  · simp only [hc, if_false]
    omega

theorem Marker.contract_end (m : Marker) (n : Int) :
    (m.contract n).«end» = m.«end» - n := by
  unfold Marker.contract
  by_cases hc : ({ m with «end» := m.«end» - n } : Marker).length ≤ 0 <;> simp [hc]

theorem Marker.contract_disables_iff (m : Marker) (n : Int) (h : m.enabled = true) :
    ((m.contract n).enabled = false) ↔ (m.«end» - n) - m.start + 1 ≤ 0 := by
  by_cases hc : m.«end» - n - m.start + 1 ≤ 0
  · simp [Marker.contract, Marker.length, hc]
  · simp [Marker.contract, Marker.length, hc, h]

/-- **C1**: for every enabled marker and every `Deleted` op of length `L ≥ 1`
at cursor `c`, the code's per-op resolution in `transformMarkers` agrees with
the spec's deletion table (rows applied in order), and the cursor does not
move. -/
theorem deletion_resolution_matches_spec (m : Marker) (c : Int) (t : List Char)
    (hEnabled : m.enabled = true) (hL : 1 ≤ (t.length : Int)) :
    transformStep (m, c) (.Deleted t) = (specDeleteResolve m c t.length, c) := by
  simp only [transformStep, specDeleteResolve]
  split_ifs <;> rfl

theorem deletion_resolution_matches_spec_witness :
    (Marker.mk 2 5 true).enabled = true ∧ (1 : Int) ≤ (['z'] : List Char).length ∧
    transformStep (⟨2, 5, true⟩, 0) (.Deleted ['z']) = (specDeleteResolve ⟨2, 5, true⟩ 0 1, 0) :=
  ⟨rfl, by decide, deletion_resolution_matches_spec ⟨2, 5, true⟩ 0 ['z'] rfl (by decide)⟩

/-- **C2**: during a marker's replay the cursor advances by the span length
for `Kept` and `Inserted` ops and stays put for `Deleted` ops, and an
inserted span is resolved exactly per the spec's insertion table. -/
theorem insertion_resolution_and_cursor (m : Marker) (c : Int) (t : List Char) :
    transformStep (m, c) (.Inserted t) = (specInsertResolve m c t.length, c + t.length) ∧
    transformStep (m, c) (.Kept t) = (m, c + t.length) ∧
    (transformStep (m, c) (.Deleted t)).2 = c := by
  refine ⟨?_, rfl, ?_⟩
  · simp only [transformStep, specInsertResolve]
    split_ifs <;> rfl
  · simp only [transformStep]
    split_ifs <;> rfl

theorem genInsertionMarkers_spec (diffs : List EditOp) : ∀ cursor : Int,
    genInsertionMarkers cursor diffs =
      (insertedSpanPositions cursor diffs).map
        (fun p => ⟨p.1, p.1 + p.2 - 1, true⟩) := by
  induction diffs with
  | nil => intro c; rfl
  | cons op rest ih =>
      intro c
      cases op <;> simp [genInsertionMarkers, insertedSpanPositions, ih]

theorem genInsertionMarkers_start_ge (diffs : List EditOp) : ∀ cursor : Int,
    ∀ m ∈ genInsertionMarkers cursor diffs, cursor ≤ m.start := by
  induction diffs with
  | nil => intro c m hm; simp [genInsertionMarkers] at hm
  | cons op rest ih =>
      intro c m hm
      cases op with
      | Inserted t =>
          simp only [genInsertionMarkers, List.mem_cons] at hm
          rcases hm with rfl | hm
          · exact le_refl _
          · have := ih (c + t.length) m hm
            omega
      | Kept t =>
          have := ih (c + t.length) m hm
          omega
      | Deleted t => exact ih c m hm

theorem genInsertionMarkers_pairwise (diffs : List EditOp) : ∀ cursor : Int,
    List.Pairwise (fun a b => a.«end» < b.start) (genInsertionMarkers cursor diffs) := by
  induction diffs with
  | nil => intro c; exact List.Pairwise.nil
  | cons op rest ih =>
      intro c
      cases op with
      | Inserted t =>
          refine List.Pairwise.cons ?_ (ih (c + t.length))
          intro b hb
          have hge := genInsertionMarkers_start_ge rest (c + t.length) b hb
          show c + (t.length : Int) - 1 < b.start
          omega
      | Kept t => exact ih (c + t.length)
      | Deleted t => exact ih c

/-- **C4**: the Insertion Marker Generator appends, for every inserted span
of length `L` observed with its cursor at `c`, exactly the marker
`{start := c, end := c + L - 1, enabled := true}` (the cursor advancing by
span length on `Kept` and `Inserted` ops only, as `insertedSpanPositions`
walks); emission follows op order and the emitted markers are pairwise
disjoint. -/
theorem insertion_generator_correct (markers : List Marker) (diffs : List EditOp) :
    addInsertionMarkers markers diffs = markers ++ genInsertionMarkers 0 diffs ∧
    genInsertionMarkers 0 diffs =
      (insertedSpanPositions 0 diffs).map (fun p => ⟨p.1, p.1 + p.2 - 1, true⟩) ∧
    (genInsertionMarkers 0 diffs).all (fun m => m.enabled) = true ∧
    List.Pairwise (fun a b => a.«end» < b.start) (genInsertionMarkers 0 diffs) := by
  refine ⟨rfl, genInsertionMarkers_spec diffs 0, ?_, genInsertionMarkers_pairwise diffs 0⟩
  rw [List.all_eq_true]
  intro m hm
  rw [genInsertionMarkers_spec diffs 0] at hm
  obtain ⟨p, hp, rfl⟩ := List.mem_map.mp hm
  rfl

/-- **C5**: the in-place Marker Transformer is element-wise application of
the pure per-marker function `transformOne diffs`: up to the presentation
ordering produced by the sort, the result is the image of the input marker
multiset, so any two processing orders of the same markers produce the same
final marker values. -/
theorem transform_order_independent (ms ms' : List Marker) (diffs : List EditOp)
    (h : ms.Perm ms') :
    (transformMarkers ms diffs).Perm (ms.map (transformOne diffs)) ∧
    (transformMarkers ms diffs).Perm (transformMarkers ms' diffs) := by
  have p1 : (transformMarkers ms diffs).Perm (ms.map (transformOne diffs)) :=
    (List.perm_insertionSort markerLE ms).map (transformOne diffs)
  have p2 : (transformMarkers ms' diffs).Perm (ms'.map (transformOne diffs)) :=
    (List.perm_insertionSort markerLE ms').map (transformOne diffs)
  exact ⟨p1, p1.trans ((h.map (transformOne diffs)).trans p2.symm)⟩

theorem transform_order_independent_witness :
    ([⟨0, 1, true⟩, ⟨4, 6, true⟩] : List Marker).Perm [⟨4, 6, true⟩, ⟨0, 1, true⟩] ∧
    (transformMarkers [⟨0, 1, true⟩, ⟨4, 6, true⟩] [.Kept ['a']]).Perm
      (transformMarkers [⟨4, 6, true⟩, ⟨0, 1, true⟩] [.Kept ['a']]) :=
  ⟨by decide,
    (transform_order_independent [⟨0, 1, true⟩, ⟨4, 6, true⟩] [⟨4, 6, true⟩, ⟨0, 1, true⟩]
      [.Kept ['a']] (by decide)).2⟩

/-- **C3, counterexample**: supplying the option key `timeoutSeconds = 5`
(the name §6 of the spec uses) does *not* hand the engine a budget of 5:
with an engine that distinguishes budget 5, the result differs from what it
would be if the budget were 5.  The destructuring in the source reads the
key named `timeout`. -/
theorem timeout_seconds_counterexample :
    computeDeepDiff c3Engine [['a'], ['b']] ⟨none, none, some 5⟩ ≠
      computeDeepDiff (fun _ o n => c3Engine 5 o n) [['a'], ['b']] ⟨none, none, some 5⟩ := by
  decide

/-- **C3, amended**: the time budget handed to the diff engine equals the
option named `timeout` when supplied and `1` when omitted (replacing the
budget argument by `options.timeout.getD 1` never changes the result), and
`skipEmpty` defaults to `true` (and `timeout` to `1`). -/
theorem timeout_option_behavior (engine : ℚ → List Char → List Char → List EditOp)
    (revisions : List (List Char)) (options : ComputeOptions) :
    computeDeepDiff engine revisions options =
      computeDeepDiff (fun _ o n => engine (options.timeout.getD 1) o n) revisions options ∧
    computeDeepDiff engine revisions { options with skipEmpty := none } =
      computeDeepDiff engine revisions { options with skipEmpty := some true } ∧
    computeDeepDiff engine revisions { options with timeout := none } =
      computeDeepDiff engine revisions { options with timeout := some 1 } :=
  ⟨rfl, rfl, rfl⟩

/-- **C9**: with fewer than two normalized revisions, `computeDeepDiff`
returns the first remaining trimmed revision (or the empty string) with no
markers, independently of the diff engine; in particular `run([])` and
`run(["x"])` return `{text: "", markers: []}` and `{text: "x", markers: []}`. -/
theorem degenerate_input (eng1 eng2 : ℚ → List Char → List Char → List EditOp)
    (revisions : List (List Char)) (options : ComputeOptions)
    (h : (normalizedTexts options revisions).length < 2) :
    computeDeepDiff eng1 revisions options =
      { text := (normalizedTexts options revisions).headD [], markers := [] } ∧
    computeDeepDiff eng1 revisions options = computeDeepDiff eng2 revisions options ∧
    computeDeepDiff eng1 [] options = { text := [], markers := [] } ∧
    computeDeepDiff eng1 [['x']] options = { text := ['x'], markers := [] } := by
  have base : ∀ eng : ℚ → List Char → List Char → List EditOp,
      computeDeepDiff eng revisions options =
        { text := (normalizedTexts options revisions).headD [], markers := [] } := by
    intro eng
    simp only [computeDeepDiff]
    rw [if_pos h]
  refine ⟨base eng1, (base eng1).trans (base eng2).symm, ?_, ?_⟩
  · rfl
  · rcases options with ⟨se, tmo, tms⟩
    rcases se with _ | b
    · rfl
    · cases b <;> rfl

theorem degenerate_input_witness :
    (normalizedTexts ⟨none, none, none⟩ [['x']]).length < 2 ∧
    computeDeepDiff c3Engine [['x']] ⟨none, none, none⟩ = { text := ['x'], markers := [] } :=
  ⟨by decide,
    (degenerate_input c3Engine c3Engine [['x']] ⟨none, none, none⟩ (by decide)).1⟩

theorem transformStep_invariant (m : Marker) (c : Int) (op : EditOp)
    (h : m.enabled = true → 1 ≤ m.length) :
    (transformStep (m, c) op).1.enabled = true → 1 ≤ (transformStep (m, c) op).1.length := by
  cases op with
  | Kept t => exact h
  | Inserted t =>
      simp only [transformStep]
      split_ifs with h1 h2
      · intro he
        rw [Marker.shift_length]
        exact h (by rwa [Marker.shift_enabled] at he)
      · intro he
        rw [Marker.expand_length]
        have := h (by rwa [Marker.expand_enabled] at he)
        have hpos : (0 : Int) ≤ t.length := Int.ofNat_nonneg _
        omega
      · exact h
  | Deleted t =>
      simp only [transformStep]
      split_ifs with h1 h2 h3 h4 h5
      · intro he
        rw [Marker.shift_length]
        exact h (by rwa [Marker.shift_enabled] at he)
      · exact h
      · intro he; simp at he
      · exact fun he => Marker.contract_enabled_length _ _ he
      · exact fun he => Marker.contract_enabled_length _ _ he
      · exact fun he => Marker.contract_enabled_length _ _ he

theorem replayFold_invariant (diffs : List EditOp) : ∀ mc : Marker × Int,
    (mc.1.enabled = true → 1 ≤ mc.1.length) →
    ((diffs.foldl transformStep mc).1.enabled = true →
      1 ≤ (diffs.foldl transformStep mc).1.length) := by
  induction diffs with
  | nil => intro mc h; exact h
  | cons op rest ih =>
      intro mc h
      exact ih (transformStep mc op) (transformStep_invariant mc.1 mc.2 op h)

theorem genInsertionMarkers_min_length (diffs : List EditOp)
    (h : ∀ op ∈ diffs, 1 ≤ (op.text.length : Int)) : ∀ cursor : Int,
    ∀ m ∈ genInsertionMarkers cursor diffs, 1 ≤ m.length := by
  induction diffs with
  | nil => intro c m hm; simp [genInsertionMarkers] at hm
  | cons op rest ih =>
      intro c m hm
      have hrest : ∀ op ∈ rest, 1 ≤ ((EditOp.text op).length : Int) :=
        fun o ho => h o (List.mem_cons_of_mem _ ho)
      cases op with
      | Inserted t =>
          simp only [genInsertionMarkers, List.mem_cons] at hm
          rcases hm with rfl | hm
          · have := h (.Inserted t) (List.mem_cons_self _ _)
            simp only [EditOp.text] at this
            simp only [Marker.length]
            omega
          · exact ih hrest (c + t.length) m hm
      | Kept t => exact ih hrest (c + t.length) m hm
      | Deleted t => exact ih hrest c m hm

/-- **C6**: marker lifecycle invariants.  `contract(n)` subtracts `n` from
`end` and disables exactly when the resulting length is `≤ 0`; `shift` and
`expand` never change the enabled flag; a disabled marker passes through a
transformer pass untouched (terminal state; the generator only appends); and
a combined transformer/generator pass on well-formed markers with nonempty
op spans yields only markers with `length ≥ 1` among the enabled ones. -/
theorem marker_lifecycle_invariants :
    (∀ (m : Marker) (n : Int), m.enabled = true →
      (((m.contract n).enabled = false) ↔ (m.«end» - n) - m.start + 1 ≤ 0) ∧
      (m.contract n).«end» = m.«end» - n) ∧
    (∀ (m : Marker) (d : Int),
      (m.shift d).enabled = m.enabled ∧ (m.expand d).enabled = m.enabled) ∧
    (∀ (diffs : List EditOp) (m : Marker), m.enabled = false → transformOne diffs m = m) ∧
    (∀ (ms : List Marker) (diffs : List EditOp) (m : Marker),
      m.enabled = false → m ∈ ms → m ∈ transformMarkers ms diffs) ∧
    (∀ (ms : List Marker) (diffs : List EditOp),
      (∀ m ∈ ms, m.enabled = true → 1 ≤ m.length) →
      (∀ op ∈ diffs, 1 ≤ (op.text.length : Int)) →
      ∀ m ∈ addInsertionMarkers (transformMarkers ms diffs) diffs,
        m.enabled = true → 1 ≤ m.length) := by
  have hskip : ∀ (diffs : List EditOp) (m : Marker),
      m.enabled = false → transformOne diffs m = m := by
    intro diffs m hm
    unfold transformOne
    rw [hm]
    simp
  refine ⟨?_, ?_, hskip, ?_, ?_⟩
  · intro m n hm
    exact ⟨Marker.contract_disables_iff m n hm, Marker.contract_end m n⟩
  · intro m d; exact ⟨rfl, rfl⟩
  · intro ms diffs m hm hmem
    have hsort : m ∈ List.insertionSort markerLE ms :=
      (List.perm_insertionSort markerLE ms).mem_iff.mpr hmem
    unfold transformMarkers
    exact List.mem_map.mpr ⟨m, hsort, hskip diffs m hm⟩
  · intro ms diffs hWF hOps m hmem
    rcases List.mem_append.mp hmem with hmem | hmem
    · unfold transformMarkers at hmem
      rcases List.mem_map.mp hmem with ⟨m0, hm0, rfl⟩
      have hm0ms : m0 ∈ ms := (List.perm_insertionSort markerLE ms).mem_iff.mp hm0
      unfold transformOne
      by_cases he : m0.enabled = true
      · rw [if_pos he]
        exact replayFold_invariant diffs (m0, 0) (fun _ => hWF m0 hm0ms he)
      · rw [if_neg he]
        intro habs
        exact absurd habs he
    · exact fun _ => genInsertionMarkers_min_length diffs hOps 0 m hmem

theorem marker_lifecycle_witness :
    transformOne [EditOp.Kept ['a']] ⟨0, 1, false⟩ = ⟨0, 1, false⟩ :=
  marker_lifecycle_invariants.2.2.1 [EditOp.Kept ['a']] ⟨0, 1, false⟩ rfl

theorem evLE_index_le {a b : BoundaryEvent} (h : evLE a b) : a.index ≤ b.index := by
  rcases h with h | ⟨h, _⟩ <;> omega

theorem evLE_close_before_open {a b : BoundaryEvent} (h : evLE a b) :
    a.index = b.index → (a.close = true ∨ b.close = false) := by
  intro hi
  rcases h with h | ⟨_, d⟩
  · omega
  · exact d

theorem countP_close_eventsOf (p : Int) : ∀ ms : List Marker,
    (eventsOf ms).countP (fun e => e.close && decide (e.index ≤ p)) =
      ms.countP (fun m => decide (m.«end» + 1 ≤ p)) := by
  intro ms
  induction ms with
  | nil => rfl
  | cons m rest ih =>
      simp only [eventsOf, List.countP_cons, ih]
      simp

theorem countP_open_eventsOf (p : Int) : ∀ ms : List Marker,
    (eventsOf ms).countP (fun e => !e.close && decide (e.index < p)) =
      ms.countP (fun m => decide (m.start < p)) := by
  intro ms
  induction ms with
  | nil => rfl
  | cons m rest ih =>
      simp only [eventsOf, List.countP_cons, ih]
      simp

theorem countP_close_eventsOf_total : ∀ ms : List Marker,
    (eventsOf ms).countP (fun e => e.close) = ms.length ∧
    (eventsOf ms).countP (fun e => !e.close) = ms.length := by
  intro ms
  induction ms with
  | nil => exact ⟨rfl, rfl⟩
  | cons m rest ih =>
      simp only [eventsOf, List.countP_cons, List.length_cons, ih.1, ih.2]
      simp

theorem sorted_balance_prefix (ms : List Marker) (hWF : ∀ m ∈ ms, m.start ≤ m.«end»)
    (l₁ l₂ : List BoundaryEvent) (a : BoundaryEvent)
    (hsplit : List.insertionSort evLE (eventsOf ms) = l₁ ++ a :: l₂) :
    (l₁ ++ [a]).countP (fun e => e.close) ≤ (l₁ ++ [a]).countP (fun e => !e.close) := by
  have hassoc : l₁ ++ a :: l₂ = (l₁ ++ [a]) ++ l₂ := by simp
  have hperm : (l₁ ++ a :: l₂).Perm (eventsOf ms) :=
    hsplit ▸ List.perm_insertionSort evLE (eventsOf ms)
  have hsorted : List.Pairwise evLE (l₁ ++ a :: l₂) :=
    hsplit ▸ List.sorted_insertionSort evLE (eventsOf ms)
  obtain ⟨hp1, hp2, hcross⟩ := List.pairwise_append.mp hsorted
  have hF1 : ∀ x ∈ l₁ ++ [a], x.index ≤ a.index := by
    intro x hx
    rcases List.mem_append.mp hx with hx | hx
    · exact evLE_index_le (hcross x hx a (List.mem_cons_self a l₂))
    · rw [List.mem_singleton] at hx
      subst hx
      exact le_refl _
  have hF2 : ∀ y ∈ l₂, ¬ ((!y.close && decide (y.index < a.index)) = true) := by
    intro y hy hcon
    have hle := evLE_index_le (List.rel_of_pairwise_cons hp2 hy)
    simp only [Bool.and_eq_true, decide_eq_true_eq] at hcon
    omega
  have s1 : (l₁ ++ [a]).countP (fun e => e.close) ≤
      (l₁ ++ [a]).countP (fun e => e.close && decide (e.index ≤ a.index)) := by
    apply List.countP_mono_left
    intro e he hc
    simp only [Bool.and_eq_true, decide_eq_true_eq]
    exact ⟨hc, hF1 e he⟩
  have s2 : (l₁ ++ [a]).countP (fun e => e.close && decide (e.index ≤ a.index)) ≤
      (l₁ ++ a :: l₂).countP (fun e => e.close && decide (e.index ≤ a.index)) := by
    rw [hassoc]
    exact (List.sublist_append_left (l₁ ++ [a]) l₂).countP_le _
  have s3 : (l₁ ++ a :: l₂).countP (fun e => e.close && decide (e.index ≤ a.index)) =
      ms.countP (fun m => decide (m.«end» + 1 ≤ a.index)) :=
    (hperm.countP_eq _).trans (countP_close_eventsOf a.index ms)
  have s4 : ms.countP (fun m => decide (m.«end» + 1 ≤ a.index)) ≤
      ms.countP (fun m => decide (m.start < a.index)) := by
    apply List.countP_mono_left
    intro m hm h
    have := hWF m hm
    simp only [decide_eq_true_eq] at h ⊢
    omega
  have s5 : ms.countP (fun m => decide (m.start < a.index)) =
      (l₁ ++ a :: l₂).countP (fun e => !e.close && decide (e.index < a.index)) :=
    (countP_open_eventsOf a.index ms).symm.trans (hperm.countP_eq _).symm
  have s6 : (l₁ ++ a :: l₂).countP (fun e => !e.close && decide (e.index < a.index)) =
      (l₁ ++ [a]).countP (fun e => !e.close && decide (e.index < a.index)) +
        l₂.countP (fun e => !e.close && decide (e.index < a.index)) := by
    rw [hassoc, List.countP_append]
  have s7 : l₂.countP (fun e => !e.close && decide (e.index < a.index)) = 0 :=
    List.countP_eq_zero.mpr hF2
  have s8 : (l₁ ++ [a]).countP (fun e => !e.close && decide (e.index < a.index)) ≤
      (l₁ ++ [a]).countP (fun e => !e.close) := by
    apply List.countP_mono_left
    intro e he h
    simp only [Bool.and_eq_true] at h
    exact h.1
  omega

/-- **C7**: for enabled, in-bounds, laminar markers, the renderer's boundary
events come out sorted by position ascending with close events before open
events at equal positions (so one marker's end abutting another's start
yields `...close, open...`, never a spurious empty `open, close` pair), and
the emitted tag sequence is balanced: in every prefix of the event list the
number of close tags never exceeds the number of open tags (each close
matches the innermost open tag still unclosed — all tags being equal
literals) and the totals agree. -/
theorem renderer_properly_nested (text : List Char) (markers : List Marker)
    (hIB : InBounds text markers) (hLam : Laminar markers)
    (hEn : ∀ m ∈ markers, m.enabled = true) :
    List.Pairwise (fun a b => a.index ≤ b.index ∧
      (a.index = b.index → (a.close = true ∨ b.close = false))) (renderEvents markers) ∧
    (∀ l₁ (a : BoundaryEvent) l₂, renderEvents markers = l₁ ++ a :: l₂ →
      (l₁ ++ [a]).countP (fun e => e.close) ≤ (l₁ ++ [a]).countP (fun e => !e.close)) ∧
    (renderEvents markers).countP (fun e => e.close) =
      (renderEvents markers).countP (fun e => !e.close) ∧
    List.Chain' (fun a b => ¬(a.close = false ∧ b.close = true ∧ a.index = b.index))
      (renderEvents markers) := by
  have hsorted : List.Pairwise evLE (renderEvents markers) :=
    List.sorted_insertionSort evLE (eventsOf (markers.filter (fun m => m.enabled)))
  have hperm : (renderEvents markers).Perm (eventsOf (markers.filter (fun m => m.enabled))) :=
    List.perm_insertionSort evLE (eventsOf (markers.filter (fun m => m.enabled)))
  refine ⟨?_, ?_, ?_, ?_⟩
  · exact hsorted.imp (fun h => ⟨evLE_index_le h, evLE_close_before_open h⟩)
  · intro l₁ a l₂ hsplit
    refine sorted_balance_prefix (markers.filter (fun m => m.enabled)) ?_ l₁ l₂ a hsplit
    intro m hm
    exact (hIB m (List.mem_of_mem_filter hm)).2.1
  · have t := countP_close_eventsOf_total (markers.filter (fun m => m.enabled))
    rw [hperm.countP_eq, hperm.countP_eq, t.1, t.2]
  · refine List.Pairwise.chain' (hsorted.imp ?_)
    rintro a b h ⟨ha, hb, hi⟩
    rcases evLE_close_before_open h hi with hc | hc
    · rw [ha] at hc; cases hc
    · rw [hb] at hc; cases hc

theorem renderer_properly_nested_witness :
    InBounds ['a', 'b', 'c'] [⟨0, 2, true⟩, ⟨1, 1, true⟩] ∧
    (renderEvents [⟨0, 2, true⟩, ⟨1, 1, true⟩]).countP (fun e => e.close) =
      (renderEvents [⟨0, 2, true⟩, ⟨1, 1, true⟩]).countP (fun e => !e.close) :=
  ⟨by decide,
    (renderer_properly_nested ['a', 'b', 'c'] [⟨0, 2, true⟩, ⟨1, 1, true⟩]
      (by decide) (by decide) (by decide)).2.2.1⟩

theorem escapeChar_no_lt (c : Char) : '<' ∉ escapeChar c := by
  unfold escapeChar
  split_ifs with h1 h2 h3 h4
  · decide
  · decide
  · decide
  · decide
  · simp only [List.mem_singleton]
    exact fun h => h2 h.symm

theorem escapeHtml_no_lt (s : List Char) : '<' ∉ escapeHtml s := by
  induction s with
  | nil => simp [escapeHtml]
  | cons c rest ih =>
      simp only [escapeHtml, List.mem_append]
      rintro (h | h)
      · exact escapeChar_no_lt c h
      · exact ih h

theorem stripTagsAux_false_append (a : List Char) (hA : '<' ∉ a) (b : List Char) :
    stripTagsAux false (a ++ b) = a ++ stripTagsAux false b := by
  induction a with
  | nil => rfl
  | cons c rest ih =>
      simp only [List.cons_append, stripTagsAux, List.append_eq]
      rw [if_neg (fun h => by subst h; exact hA (List.mem_cons_self _ _))]
      rw [ih (fun h => hA (List.mem_cons_of_mem c h))]

theorem stripTagsAux_true_append (mid : List Char) (hM : '>' ∉ mid) (b : List Char) :
    stripTagsAux true (mid ++ '>' :: b) = stripTagsAux false b := by
  induction mid with
  | nil => simp [stripTagsAux]
  | cons c rest ih =>
      simp only [List.cons_append, stripTagsAux, List.append_eq]
      rw [if_neg (fun h => by subst h; exact hM (List.mem_cons_self _ _))]
      exact ih (fun h => hM (List.mem_cons_of_mem c h))

theorem stripTagsAux_tag (mid : List Char) (hM : '>' ∉ mid) (b : List Char) :
    stripTagsAux false (('<' :: (mid ++ ['>'])) ++ b) = stripTagsAux false b := by
  simp only [List.cons_append, stripTagsAux, if_pos, List.append_eq]
  rw [List.append_assoc, List.singleton_append]
  exact stripTagsAux_true_append mid hM b

theorem defaultOpen_strip (b : List Char) :
    stripTagsAux false (openTagOf defTagName defClassName ++ b) = stripTagsAux false b := by
  have hshape : openTagOf defTagName defClassName =
      '<' :: (['i', 'n', 's', ' ', 'c', 'l', 'a', 's', 's', '=', '"',
        'd', 'e', 'e', 'p', '-', 'd', 'i', 'f', 'f', '"'] ++ ['>']) := by decide
  rw [hshape]
  exact stripTagsAux_tag _ (by decide) b

theorem defaultClose_strip (b : List Char) :
    stripTagsAux false (closeTagOf defTagName ++ b) = stripTagsAux false b := by
  have hshape : closeTagOf defTagName = '<' :: (['/', 'i', 'n', 's'] ++ ['>']) := by decide
  rw [hshape]
  exact stripTagsAux_tag _ (by decide) b

theorem unescapeHtml_cons_of_ne (c : Char) (h : ¬ c = '&') (l : List Char) :
    unescapeHtml (c :: l) = c :: unescapeHtml l := by
  conv_lhs => unfold unescapeHtml
  split <;> simp_all

theorem unescape_escape_append (s t : List Char) :
    unescapeHtml (escapeHtml s ++ t) = s ++ unescapeHtml t := by
  induction s with
  | nil => rfl
  | cons c rest ih =>
      show unescapeHtml ((escapeChar c ++ escapeHtml rest) ++ t) = c :: (rest ++ unescapeHtml t)
      rw [List.append_assoc]
      by_cases h1 : c = '&'
      · subst h1
        show unescapeHtml ('&' :: 'a' :: 'm' :: 'p' :: ';' :: (escapeHtml rest ++ t)) = _
        rw [show unescapeHtml ('&' :: 'a' :: 'm' :: 'p' :: ';' :: (escapeHtml rest ++ t)) =
          '&' :: unescapeHtml (escapeHtml rest ++ t) from rfl, ih]
      · by_cases h2 : c = '<'
        · subst h2
          show unescapeHtml ('&' :: 'l' :: 't' :: ';' :: (escapeHtml rest ++ t)) = _
          rw [show unescapeHtml ('&' :: 'l' :: 't' :: ';' :: (escapeHtml rest ++ t)) =
            '<' :: unescapeHtml (escapeHtml rest ++ t) from rfl, ih]
        · by_cases h3 : c = '>'
          · subst h3
            show unescapeHtml ('&' :: 'g' :: 't' :: ';' :: (escapeHtml rest ++ t)) = _
            rw [show unescapeHtml ('&' :: 'g' :: 't' :: ';' :: (escapeHtml rest ++ t)) =
              '>' :: unescapeHtml (escapeHtml rest ++ t) from rfl, ih]
          · by_cases h4 : c = '"'
            · subst h4
              show unescapeHtml ('&' :: 'q' :: 'u' :: 'o' :: 't' :: ';' :: (escapeHtml rest ++ t)) = _
              rw [show unescapeHtml
                ('&' :: 'q' :: 'u' :: 'o' :: 't' :: ';' :: (escapeHtml rest ++ t)) =
                '"' :: unescapeHtml (escapeHtml rest ++ t) from rfl, ih]
            · show unescapeHtml (escapeChar c ++ (escapeHtml rest ++ t)) = _
              rw [show escapeChar c = [c] by simp [escapeChar, h1, h2, h3, h4],
                List.singleton_append, unescapeHtml_cons_of_ne c h1, ih]

theorem jsSlice_nonneg_eq (l : List Char) (a b : Int) (ha : 0 ≤ a) (hb : 0 ≤ b) :
    jsSlice l a b = (l.drop (min a (l.length : Int)).toNat).take
      ((min b (l.length : Int)).toNat - (min a (l.length : Int)).toNat) := by
  unfold jsSlice
  dsimp only
  rw [if_neg (show ¬ a < 0 by omega), if_neg (show ¬ b < 0 by omega)]
  congr 1
  omega

theorem jsSlice_glue (l : List Char) (a b : Int) (ha : 0 ≤ a) (hab : a ≤ b) :
    jsSlice l a b ++ jsSliceFrom l b = jsSliceFrom l a := by
  have hb : 0 ≤ b := le_trans ha hab
  have hn : 0 ≤ (l.length : Int) := Int.ofNat_nonneg _
  unfold jsSliceFrom
  rw [jsSlice_nonneg_eq l a b ha hb, jsSlice_nonneg_eq l b _ hb hn,
    jsSlice_nonneg_eq l a _ ha hn]
  have hmin : (min (l.length : Int) (l.length : Int)).toNat = l.length := by omega
  rw [hmin]
  have hAB : (min a (l.length : Int)).toNat ≤ (min b (l.length : Int)).toNat := by omega
  have hBn : (min b (l.length : Int)).toNat ≤ l.length := by omega
  have hAn : (min a (l.length : Int)).toNat ≤ l.length := by omega
  have h1 : l.drop (min b (l.length : Int)).toNat =
      List.drop ((min b (l.length : Int)).toNat - (min a (l.length : Int)).toNat)
        (l.drop (min a (l.length : Int)).toNat) := by
    rw [List.drop_drop]
    congr 1
    omega
  have h2 : List.take (l.length - (min b (l.length : Int)).toNat)
      (l.drop (min b (l.length : Int)).toNat) = l.drop (min b (l.length : Int)).toNat :=
    List.take_of_length_le (by rw [List.length_drop])
  have h3 : List.take (l.length - (min a (l.length : Int)).toNat)
      (l.drop (min a (l.length : Int)).toNat) = l.drop (min a (l.length : Int)).toNat :=
    List.take_of_length_le (by rw [List.length_drop])
  rw [h2, h3, h1, List.take_append_drop]

theorem jsSliceFrom_of_ge (l : List Char) (pos : Int) (h : (l.length : Int) ≤ pos) :
    jsSliceFrom l pos = [] := by
  unfold jsSliceFrom jsSlice
  dsimp only
  rw [if_neg (show ¬ pos < 0 by omega), if_neg (show ¬ (l.length : Int) < 0 by omega)]
  have hmin : (min pos (l.length : Int)).toNat = l.length := by omega
  rw [hmin, List.drop_length, List.take_nil]

theorem jsSliceFrom_zero (l : List Char) : jsSliceFrom l 0 = [] ++ l := by
  unfold jsSliceFrom jsSlice
  dsimp only
  rw [if_neg (show ¬ (0 : Int) < 0 by omega), if_neg (show ¬ (l.length : Int) < 0 by omega)]
  have h0 : (min (0 : Int) (l.length : Int)).toNat = 0 := by omega
  have hn : ((min ((l.length : Int)) ((l.length : Int))) - min (0 : Int) (l.length : Int)).toNat
      = l.length := by omega
  rw [h0, hn, List.drop_zero, List.take_of_length_le (le_refl _), List.nil_append]

theorem renderLoop_roundtrip (text openTag closeTag : List Char)
    (hO : ∀ b, stripTagsAux false (openTag ++ b) = stripTagsAux false b)
    (hC : ∀ b, stripTagsAux false (closeTag ++ b) = stripTagsAux false b) :
    ∀ (es : List BoundaryEvent) (pos : Int), 0 ≤ pos →
      unescapeHtml (stripTagsAux false (renderLoop text openTag closeTag es pos)) =
        jsSliceFrom text pos := by
  intro es
  induction es with
  | nil =>
      intro pos hpos
      simp only [renderLoop]
      by_cases h : pos < (text.length : Int)
      · rw [if_pos h]
        have hs := stripTagsAux_false_append (escapeHtml (jsSliceFrom text pos))
          (escapeHtml_no_lt _) []
        rw [List.append_nil] at hs
        rw [hs, unescape_escape_append]
        rw [show unescapeHtml (stripTagsAux false []) = [] from rfl, List.append_nil]
      · rw [if_neg h, jsSliceFrom_of_ge text pos (by omega)]
        rfl
  | cons e rest ih =>
      intro pos hpos
      simp only [renderLoop]
      by_cases h : e.index > pos
      · rw [if_pos h, List.append_assoc, stripTagsAux_false_append _ (escapeHtml_no_lt _) _]
        have htag : stripTagsAux false ((if e.close then closeTag else openTag) ++
            renderLoop text openTag closeTag rest e.index) =
            stripTagsAux false (renderLoop text openTag closeTag rest e.index) := by
          cases e.close
          · exact hO _
          · exact hC _
        rw [htag, unescape_escape_append, ih e.index (by omega),
          jsSlice_glue text pos e.index hpos (le_of_lt h)]
      · rw [if_neg h]
        have htag : stripTagsAux false ((if e.close then closeTag else openTag) ++
            renderLoop text openTag closeTag rest pos) =
            stripTagsAux false (renderLoop text openTag closeTag rest pos) := by
          cases e.close
          · exact hO _
          · exact hC _
        rw [htag]
        exact ih pos hpos

/-- **C8**: rendering with the empty marker set is exactly the escaped text,
and for a laminar in-bounds marker set, removing every tag from the rendered
output and un-escaping the HTML entities reproduces the original text. -/
theorem render_roundtrip (text : List Char) (markers : List Marker)
    (hLam : Laminar markers) (hIB : InBounds text markers) :
    renderWithMarkers text [] defTagName defClassName = escapeHtml text ∧
    unescapeHtml (stripTags (renderWithMarkers text markers defTagName defClassName)) =
      text := by
  constructor
  · rfl
  · unfold renderWithMarkers stripTags
    by_cases hA : (markers.filter (fun m => m.enabled)).length = 0
    · rw [if_pos hA]
      have hs := stripTagsAux_false_append (escapeHtml text) (escapeHtml_no_lt _) []
      rw [List.append_nil] at hs
      rw [hs, unescape_escape_append]
      rw [show unescapeHtml (stripTagsAux false []) = [] from rfl, List.append_nil]
    · rw [if_neg hA,
        renderLoop_roundtrip text (openTagOf defTagName defClassName) (closeTagOf defTagName)
          defaultOpen_strip defaultClose_strip (renderEvents markers) 0 (le_refl 0),
        jsSliceFrom_zero, List.nil_append]

theorem render_roundtrip_witness :
    Laminar [⟨0, 2, true⟩, ⟨1, 1, true⟩] ∧
    unescapeHtml (stripTags (renderWithMarkers ['a', '&', 'c']
      [⟨0, 2, true⟩, ⟨1, 1, true⟩] defTagName defClassName)) = ['a', '&', 'c'] :=
  ⟨by decide,
    (render_roundtrip ['a', '&', 'c'] [⟨0, 2, true⟩, ⟨1, 1, true⟩]
      (by decide) (by decide)).2⟩

theorem jsSlice_self (l : List Char) (a : Int) : jsSlice l a a = [] := by
  unfold jsSlice
  dsimp only
  rw [sub_self]
  simp

theorem renderLoop_cons_flush (text openTag closeTag : List Char) (e : BoundaryEvent)
    (es : List BoundaryEvent) (pos : Int) (h : e.index > pos) :
    renderLoop text openTag closeTag (e :: es) pos =
      escapeHtml (jsSlice text pos e.index) ++ (if e.close then closeTag else openTag) ++
        renderLoop text openTag closeTag es e.index := by
  simp only [renderLoop, if_pos h]

theorem renderLoop_cons_stay (text openTag closeTag : List Char) (e : BoundaryEvent)
    (es : List BoundaryEvent) (pos : Int) (h : ¬ e.index > pos) :
    renderLoop text openTag closeTag (e :: es) pos =
      (if e.close then closeTag else openTag) ++ renderLoop text openTag closeTag es pos := by
  simp only [renderLoop, if_neg h]

theorem renderEvents_single (m : Marker) (hEn : m.enabled = true)
    (hW : m.start ≤ m.«end») :
    renderEvents [m] = [⟨m.start, false⟩, ⟨m.«end» + 1, true⟩] := by
  unfold renderEvents
  rw [show List.filter (fun m => m.enabled) [m] = [m] by simp [List.filter, hEn]]
  show List.insertionSort evLE [⟨m.start, false⟩, ⟨m.«end» + 1, true⟩] = _
  simp only [List.insertionSort, List.orderedInsert]
  have hle : evLE ⟨m.start, false⟩ ⟨m.«end» + 1, true⟩ :=
    Or.inl (show m.start < m.«end» + 1 by omega)
  rw [if_pos hle]

theorem render_single_marker (text : List Char) (m : Marker)
    (h0 : 0 ≤ m.start) (h1 : m.start ≤ m.«end») (h2 : m.«end» < (text.length : Int))
    (hEn : m.enabled = true) :
    renderWithMarkers text [m] defTagName defClassName =
      escapeHtml (jsSlice text 0 m.start) ++ openTagOf defTagName defClassName ++
      (escapeHtml (jsSlice text m.start (m.«end» + 1)) ++ closeTagOf defTagName ++
        escapeHtml (jsSliceFrom text (m.«end» + 1))) := by
  unfold renderWithMarkers
  rw [show List.filter (fun m => m.enabled) [m] = [m] by simp [List.filter, hEn]]
  rw [if_neg (by simp)]
  rw [renderEvents_single m hEn h1]
  have hTail : renderLoop text (openTagOf defTagName defClassName) (closeTagOf defTagName)
      [] (m.«end» + 1) = escapeHtml (jsSliceFrom text (m.«end» + 1)) := by
    simp only [renderLoop]
    by_cases hend : m.«end» + 1 < (text.length : Int)
    · rw [if_pos hend]
    · rw [if_neg hend, jsSliceFrom_of_ge text (m.«end» + 1) (by omega)]
      rfl
  by_cases hs : (0 : Int) < m.start
  · rw [renderLoop_cons_flush _ _ _ _ _ _ hs,
      renderLoop_cons_flush _ _ _ _ _ _ (show m.«end» + 1 > m.start by omega),
      if_neg (show ¬ (false = true) by decide), if_pos (show (true : Bool) = true from rfl),
      hTail]
  · have hz : m.start = 0 := by omega
    rw [renderLoop_cons_stay _ _ _ _ _ _ (show ¬ (m.start > (0 : Int)) by omega),
      renderLoop_cons_flush _ _ _ _ _ _ (show m.«end» + 1 > 0 by omega),
      if_neg (show ¬ (false = true) by decide), if_pos (show (true : Bool) = true from rfl),
      hTail, hz, jsSlice_self]
    simp [escapeHtml, List.append_assoc]

theorem utf16Encode_single (s : List Char) (h : ∀ c ∈ s, c.toNat < 0x10000) :
    utf16Encode s = s.map Char.toNat := by
  induction s with
  | nil => rfl
  | cons c rest ih =>
      simp only [utf16Encode, List.map_cons]
      have hc : utf16Units c = [c.toNat] := by
        unfold utf16Units
        exact if_pos (h c (List.mem_cons_self _ _))
      rw [hc, List.singleton_append, ih (fun x hx => h x (List.mem_cons_of_mem c hx))]

theorem utf16_slice_single (s : List Char) (a b : Int)
    (h : ∀ c ∈ s, c.toNat < 0x10000) :
    jsStringSlice s a b = utf16Encode (jsSlice s a b) := by
  unfold jsStringSlice jsSlice
  dsimp only
  rw [utf16Encode_single s h, List.length_map]
  rw [utf16Encode_single _ (fun c hc =>
    h c (List.drop_subset _ _ (List.take_subset _ _ hc)))]
  simp [List.map_take, List.map_drop]

/-- **C10**: `renderWithMarkers` indexes markers over the code points of the
text (the source splits with the spread operator before slicing): the
substring wrapped by a marker's tags is the code-point slice
`start..end`, which for texts containing surrogate-pair characters differs
from the UTF-16 `text.slice(start, end + 1)` used elsewhere, while the two
slicing notions coincide for texts of single-code-unit characters. -/
theorem codepoint_indexing :
    (∀ (text : List Char) (m : Marker), 0 ≤ m.start → m.start ≤ m.«end» →
      m.«end» < (text.length : Int) → m.enabled = true →
      renderWithMarkers text [m] defTagName defClassName =
        escapeHtml (jsSlice text 0 m.start) ++ openTagOf defTagName defClassName ++
        (escapeHtml (jsSlice text m.start (m.«end» + 1)) ++ closeTagOf defTagName ++
          escapeHtml (jsSliceFrom text (m.«end» + 1)))) ∧
    utf16Encode (jsSlice demoText 1 2) ≠ jsStringSlice demoText 1 2 ∧
    (∀ (s : List Char) (a b : Int), (∀ c ∈ s, c.toNat < 0x10000) →
      jsStringSlice s a b = utf16Encode (jsSlice s a b)) :=
  ⟨render_single_marker, by decide, utf16_slice_single⟩

theorem codepoint_indexing_witness :
    renderWithMarkers demoText [⟨1, 1, true⟩] defTagName defClassName =
      escapeHtml (jsSlice demoText 0 1) ++ openTagOf defTagName defClassName ++
      (escapeHtml (jsSlice demoText 1 2) ++ closeTagOf defTagName ++
        escapeHtml (jsSliceFrom demoText 2)) :=
  codepoint_indexing.1 demoText ⟨1, 1, true⟩ (by decide) (by decide) (by decide) rfl

end DeepDiff
